import Mathlib

/-!
Verification of the tile-coordinate math of the tile-boundary-layer plugin
(`tile_boundary_layer_manager.py`), embedded shallowly over exact rational
arithmetic.  Python numeric operations are modelled on `ℚ`; the Python
`int(...)` conversion truncates toward zero and is modelled by `pytrunc`;
the zoom estimation uses `math.log2` over floats and is modelled over `ℝ`
with round-half-to-even (`pyRound`, the Python 3 `round` builtin).
-/

namespace TileBoundary

/-- Constant `ORIGIN_SHIFT = 20037508.342789244` from the source. -/
def ORIGIN_SHIFT : ℚ := 20037508.342789244

/-- Constant `TILE_SIZE_XYZ = 256` from the source. -/
def TILE_SIZE_XYZ : ℚ := 256

/-- Constant `TILE_SIZE_VECTOR = 512` from the source. -/
def TILE_SIZE_VECTOR : ℚ := 512

/-- Python `int(q)` on a rational value: truncation toward zero. -/
def pytrunc (q : ℚ) : ℤ := if 0 ≤ q then ⌊q⌋ else -⌊-q⌋

/-- Source function `resolution(z, tile_size)`:
`(2 * ORIGIN_SHIFT) / (tile_size * 2 ** z)`.  The zoom is an integer and
the Python power `2 ** z` is a fraction for negative `z`, modelled by
`zpow` on `ℚ`. -/
def resolution (z : ℤ) (tile_size : ℚ) : ℚ :=
  (2 * ORIGIN_SHIFT) / (tile_size * (2 : ℚ) ^ z)

/-- Source function `mercator_to_tile(mx, my, z, tile_size)`:
`px = (mx + ORIGIN_SHIFT)/res`, `py = (ORIGIN_SHIFT - my)/res`,
`tx = int(px / tile_size)`, `ty = int(py / tile_size)`. -/
def mercator_to_tile (mx my : ℚ) (z : ℤ) (tile_size : ℚ) : ℤ × ℤ :=
  let res := resolution z tile_size
  let px := (mx + ORIGIN_SHIFT) / res
  let py := (ORIGIN_SHIFT - my) / res
  (pytrunc (px / tile_size), pytrunc (py / tile_size))

/-- Source function `tile_bounds(tx, ty, z, tile_size)`, returning the
EPSG:3857 bounding box `(minx, miny, maxx, maxy)`. -/
def tile_bounds (tx ty : ℤ) (z : ℤ) (tile_size : ℚ) : ℚ × ℚ × ℚ × ℚ :=
  let res := resolution z tile_size
  let minx := tx * tile_size * res - ORIGIN_SHIFT
  let maxx := (tx + 1) * tile_size * res - ORIGIN_SHIFT
  let maxy := ORIGIN_SHIFT - ty * tile_size * res
  let miny := ORIGIN_SHIFT - (ty + 1) * tile_size * res
  (minx, miny, maxx, maxy)

/-- Source function `is_valid_tile(tx, ty, z)`:
`max_tile = 2 ** z; 0 <= tx < max_tile and 0 <= ty < max_tile`.
For negative `z` the Python value `2 ** z` is a fraction, so the
comparison is modelled on `ℚ` with `zpow`. -/
def is_valid_tile (tx ty : ℤ) (z : ℤ) : Bool :=
  let max_tile := (2 : ℚ) ^ z
  decide ((0 : ℚ) ≤ (tx : ℚ) ∧ (tx : ℚ) < max_tile) &&
    decide ((0 : ℚ) ≤ (ty : ℚ) ∧ (ty : ℚ) < max_tile)

/-- Python `range(a, b + 1)` over integers, as a list. -/
def intRange (a b : ℤ) : List ℤ :=
  (List.range (b + 1 - a).toNat).map (fun i : ℕ => a + (i : ℤ))

/-- The tile-grid computation of `create_tile_layer` (lines 152-191 of the
source): project the two viewport corners through `mercator_to_tile`,
sort to obtain the inclusive column and row ranges, enumerate all pairs
in those ranges, and keep the ones passing `is_valid_tile`.  The QGIS
feature construction is dropped; the result is the list of `(tx, ty)`
indices in loop order. -/
def tileGrid (minx miny maxx maxy : ℚ) (z : ℤ) (tile_size : ℚ) : List (ℤ × ℤ) :=
  let c1 := mercator_to_tile minx miny z tile_size
  let c2 := mercator_to_tile maxx maxy z tile_size
  let min_tx := c1.1
  let max_ty := c1.2
  let max_tx := c2.1
  let min_ty := c2.2
  let tx0 := min min_tx max_tx
  let tx1 := max min_tx max_tx
  let ty0 := min min_ty max_ty
  let ty1 := max min_ty max_ty
  (intRange tx0 tx1).flatMap (fun tx =>
    ((intRange ty0 ty1).filter (fun ty => is_valid_tile tx ty z)).map
      (fun ty => (tx, ty)))

/-! ### Basic helper lemmas -/

lemma ORIGIN_SHIFT_pos : 0 < ORIGIN_SHIFT := by norm_num [ORIGIN_SHIFT]

lemma two_zpow_pos (z : ℤ) : (0 : ℚ) < (2 : ℚ) ^ z := zpow_pos two_pos z

lemma resolution_pos (z : ℤ) {s : ℚ} (hs : 0 < s) : 0 < resolution z s := by
  unfold resolution
  exact div_pos (by linarith [ORIGIN_SHIFT_pos]) (mul_pos hs (two_zpow_pos z))

lemma pytrunc_of_nonneg {q : ℚ} (h : 0 ≤ q) : pytrunc q = ⌊q⌋ := if_pos h

lemma pytrunc_intCast (n : ℤ) : pytrunc (n : ℚ) = n := by
  unfold pytrunc
  split_ifs with h
  · exact Int.floor_intCast n
  · rw [← Int.cast_neg, Int.floor_intCast, neg_neg]

lemma pytrunc_int_add_half (n : ℤ) (hn : 0 ≤ n) : pytrunc ((n : ℚ) + 1 / 2) = n := by
  have hn' : (0 : ℚ) ≤ (n : ℚ) := by exact_mod_cast hn
  rw [pytrunc_of_nonneg (by linarith), Int.floor_int_add]
  norm_num

/-- Evaluation helper: `mercator_to_tile` as `pytrunc` of the two scaled
coordinates. -/
lemma mercator_eq_of (mx my : ℚ) (z : ℤ) (s : ℚ) (u v : ℚ)
    (hu : (mx + ORIGIN_SHIFT) / resolution z s / s = u)
    (hv : (ORIGIN_SHIFT - my) / resolution z s / s = v) :
    mercator_to_tile mx my z s = (pytrunc u, pytrunc v) := by
  simp only [mercator_to_tile, hu, hv]

/-- Evaluation helper: a point whose scaled coordinates are integral maps
to exactly those integers. -/
lemma mercator_eq_int (mx my : ℚ) (z : ℤ) (s : ℚ) (a b : ℤ)
    (hu : (mx + ORIGIN_SHIFT) / resolution z s / s = (a : ℚ))
    (hv : (ORIGIN_SHIFT - my) / resolution z s / s = (b : ℚ)) :
    mercator_to_tile mx my z s = (a, b) := by
  rw [mercator_eq_of mx my z s _ _ hu hv, pytrunc_intCast, pytrunc_intCast]

/-- Evaluation helper: a point whose scaled coordinates are integers plus
one half maps to those integers, when they are nonnegative. -/
lemma mercator_eq_half (mx my : ℚ) (z : ℤ) (s : ℚ) (a b : ℤ)
    (ha : 0 ≤ a) (hb : 0 ≤ b)
    (hu : (mx + ORIGIN_SHIFT) / resolution z s / s = (a : ℚ) + 1 / 2)
    (hv : (ORIGIN_SHIFT - my) / resolution z s / s = (b : ℚ) + 1 / 2) :
    mercator_to_tile mx my z s = (a, b) := by
  rw [mercator_eq_of mx my z s _ _ hu hv, pytrunc_int_add_half a ha,
    pytrunc_int_add_half b hb]

lemma is_valid_tile_iff (z : ℕ) (tx ty : ℤ) :
    is_valid_tile tx ty (z : ℤ) = true ↔
      0 ≤ tx ∧ tx < 2 ^ z ∧ 0 ≤ ty ∧ ty < 2 ^ z := by
  simp only [is_valid_tile, Bool.and_eq_true, decide_eq_true_eq]
  rw [zpow_natCast]
  have h2 : ((2 : ℚ) ^ z) = (((2 ^ z : ℤ) : ℚ)) := by push_cast; ring
  rw [h2]
  constructor
  · rintro ⟨⟨ha, hb⟩, hc, hd⟩
    exact ⟨by exact_mod_cast ha, by exact_mod_cast hb, by exact_mod_cast hc,
      by exact_mod_cast hd⟩
  · rintro ⟨ha, hb, hc, hd⟩
    exact ⟨⟨by exact_mod_cast ha, by exact_mod_cast hb⟩,
      by exact_mod_cast hc, by exact_mod_cast hd⟩

/-! ### Claim theorems -/

/-- Claim C1: for every zoom `z ≥ 0`, tile size `s > 0`, and valid tile
index `(tx, ty)` with `0 ≤ tx, ty < 2 ^ z`, computing the bounding box of
the tile with `tile_bounds` and mapping the center of that box back
through `mercator_to_tile` returns exactly `(tx, ty)`. -/
theorem C1_center_roundtrip (z : ℕ) (s : ℚ) (hs : 0 < s) (tx ty : ℤ)
    (h1 : 0 ≤ tx) (h2 : tx < 2 ^ z) (h3 : 0 ≤ ty) (h4 : ty < 2 ^ z) :
    mercator_to_tile
      (((tile_bounds tx ty (z : ℤ) s).1 + (tile_bounds tx ty (z : ℤ) s).2.2.1) / 2)
      (((tile_bounds tx ty (z : ℤ) s).2.1 + (tile_bounds tx ty (z : ℤ) s).2.2.2) / 2)
      (z : ℤ) s = (tx, ty) := by
  have hr : 0 < resolution (z : ℤ) s := resolution_pos _ hs
  have hr0 : resolution (z : ℤ) s ≠ 0 := ne_of_gt hr
  have hs0 : s ≠ 0 := ne_of_gt hs
  simp only [tile_bounds]
  exact mercator_eq_half _ _ _ _ tx ty h1 h3
    (by push_cast; field_simp; ring) (by push_cast; field_simp; ring)

/-- Witness for C1 at `z = 1`, `s = 256`, `(tx, ty) = (0, 0)`. -/
theorem C1_witness :
    (0 : ℚ) < 256 ∧ (0 : ℤ) ≤ 0 ∧ (0 : ℤ) < 2 ^ 1 ∧
    mercator_to_tile
      (((tile_bounds 0 0 ((1 : ℕ) : ℤ) 256).1 + (tile_bounds 0 0 ((1 : ℕ) : ℤ) 256).2.2.1) / 2)
      (((tile_bounds 0 0 ((1 : ℕ) : ℤ) 256).2.1 + (tile_bounds 0 0 ((1 : ℕ) : ℤ) 256).2.2.2) / 2)
      ((1 : ℕ) : ℤ) 256 = (0, 0) :=
  ⟨by norm_num, le_refl 0, by norm_num,
    C1_center_roundtrip 1 256 (by norm_num) 0 0 (by norm_num) (by norm_num)
      (by norm_num) (by norm_num)⟩

/-- Claim C7: for every zoom `z ≥ 0` and all integers `tx, ty`, the check
`is_valid_tile tx ty z` returns `true` if and only if `0 ≤ tx < 2 ^ z`
and `0 ≤ ty < 2 ^ z`. -/
theorem C7_is_valid_tile_iff (z : ℕ) (tx ty : ℤ) :
    is_valid_tile tx ty (z : ℤ) = true ↔
      0 ≤ tx ∧ tx < 2 ^ z ∧ 0 ≤ ty ∧ ty < 2 ^ z :=
  is_valid_tile_iff z tx ty

/-- Claim C9: for every negative zoom `z < 0`, the Python value `2 ** z`
is a fraction strictly between `0` and `1`, so `is_valid_tile tx ty z`
returns `true` exactly when `tx = 0` and `ty = 0`; negative zoom is not
rejected by the validity check. -/
theorem C9_negative_zoom (z : ℤ) (hz : z < 0) (tx ty : ℤ) :
    is_valid_tile tx ty z = true ↔ tx = 0 ∧ ty = 0 := by
  have h0 : (0 : ℚ) < (2 : ℚ) ^ z := two_zpow_pos z
  have h1 : (2 : ℚ) ^ z < 1 := zpow_lt_one_of_neg₀ one_lt_two hz
  simp only [is_valid_tile, Bool.and_eq_true, decide_eq_true_eq]
  constructor
  · rintro ⟨⟨ha, hb⟩, hc, hd⟩
    have hxa : 0 ≤ tx := by exact_mod_cast ha
    have hxb : (tx : ℚ) < 1 := lt_trans hb h1
    have hxb' : tx < 1 := by exact_mod_cast hxb
    have hya : 0 ≤ ty := by exact_mod_cast hc
    have hyb : (ty : ℚ) < 1 := lt_trans hd h1
    have hyb' : ty < 1 := by exact_mod_cast hyb
    omega
  · rintro ⟨rfl, rfl⟩
    refine ⟨⟨by norm_num, ?_⟩, by norm_num, ?_⟩ <;> simpa using h0

/-- Witness for C9 at `z = -1`, `(tx, ty) = (0, 0)`. -/
theorem C9_witness : (-1 : ℤ) < 0 ∧ is_valid_tile 0 0 (-1) = true :=
  ⟨by norm_num, (C9_negative_zoom (-1) (by norm_num) 0 0).mpr ⟨rfl, rfl⟩⟩

/-- Claim C10: for every zoom `z ≥ 0`, tile size `s > 0`, and valid tile
index, the box returned by `tile_bounds` satisfies `minx < maxx` and
`miny < maxy`, and its width and height both equal
`s * resolution z s`. -/
theorem C10_bounds_extent (z : ℕ) (s : ℚ) (hs : 0 < s) (tx ty : ℤ)
    (h1 : 0 ≤ tx) (h2 : tx < 2 ^ z) (h3 : 0 ≤ ty) (h4 : ty < 2 ^ z) :
    (tile_bounds tx ty (z : ℤ) s).1 < (tile_bounds tx ty (z : ℤ) s).2.2.1 ∧
    (tile_bounds tx ty (z : ℤ) s).2.1 < (tile_bounds tx ty (z : ℤ) s).2.2.2 ∧
    (tile_bounds tx ty (z : ℤ) s).2.2.1 - (tile_bounds tx ty (z : ℤ) s).1
      = s * resolution (z : ℤ) s ∧
    (tile_bounds tx ty (z : ℤ) s).2.2.2 - (tile_bounds tx ty (z : ℤ) s).2.1
      = s * resolution (z : ℤ) s := by
  have hr : 0 < resolution (z : ℤ) s := resolution_pos _ hs
  have hsr : 0 < s * resolution (z : ℤ) s := mul_pos hs hr
  simp only [tile_bounds]
  refine ⟨?_, ?_, by push_cast; ring, by push_cast; ring⟩
  · push_cast
    nlinarith
  · push_cast
    nlinarith

/-- Witness for C10 at `z = 0`, `s = 256`, `(tx, ty) = (0, 0)`. -/
theorem C10_witness :
    (0 : ℚ) < 256 ∧ (0 : ℤ) ≤ 0 ∧ (0 : ℤ) < 2 ^ 0 ∧
    ((tile_bounds 0 0 ((0 : ℕ) : ℤ) 256).1 < (tile_bounds 0 0 ((0 : ℕ) : ℤ) 256).2.2.1 ∧
     (tile_bounds 0 0 ((0 : ℕ) : ℤ) 256).2.1 < (tile_bounds 0 0 ((0 : ℕ) : ℤ) 256).2.2.2 ∧
     (tile_bounds 0 0 ((0 : ℕ) : ℤ) 256).2.2.1 - (tile_bounds 0 0 ((0 : ℕ) : ℤ) 256).1
       = 256 * resolution ((0 : ℕ) : ℤ) 256 ∧
     (tile_bounds 0 0 ((0 : ℕ) : ℤ) 256).2.2.2 - (tile_bounds 0 0 ((0 : ℕ) : ℤ) 256).2.1
       = 256 * resolution ((0 : ℕ) : ℤ) 256) :=
  ⟨by norm_num, le_refl 0, by norm_num,
    C10_bounds_extent 0 256 (by norm_num) 0 0 (by norm_num) (by norm_num)
      (by norm_num) (by norm_num)⟩

/-- Claim C4, counterexample: the claim asserts floor semantics for all
inputs, including points outside the world square whose shifted
coordinate is negative.  At `mx = -2 * ORIGIN_SHIFT`, `z = 0`,
`s = 256`, the scaled x-coordinate is `-1/2`: the code (Python `int`,
truncation toward zero) returns tile column `0`, while the floor of the
scaled coordinate is `-1`. -/
theorem C4_counterexample :
    mercator_to_tile (-2 * ORIGIN_SHIFT) 0 0 256 = (0, 0) ∧
    ⌊(-2 * ORIGIN_SHIFT + ORIGIN_SHIFT) / (256 * resolution 0 256)⌋ = (-1 : ℤ) := by
  have hOS : 0 < ORIGIN_SHIFT := ORIGIN_SHIFT_pos
  have hOS0 : ORIGIN_SHIFT ≠ 0 := ne_of_gt hOS
  have hres : resolution 0 256 = ORIGIN_SHIFT / 128 := by
    unfold resolution
    norm_num
    ring
  constructor
  · have h := mercator_eq_of (-2 * ORIGIN_SHIFT) 0 0 256 (-(1 / 2)) (1 / 2)
      (by rw [hres]; field_simp; ring) (by rw [hres]; field_simp; ring)
    rw [h]
    norm_num [pytrunc]
  · have harg : (-2 * ORIGIN_SHIFT + ORIGIN_SHIFT) / (256 * resolution 0 256)
        = -(1 / 2) := by
      rw [hres]; field_simp; ring
    rw [harg]
    norm_num

/-- Claim C4 as amended: `mercator_to_tile` truncates toward zero, which
agrees with floor semantics whenever the shifted coordinates
`mx + ORIGIN_SHIFT` and `ORIGIN_SHIFT - my` are nonnegative, i.e. for
points with `mx ≥ -ORIGIN_SHIFT` and `my ≤ ORIGIN_SHIFT`; outside that
range truncation toward zero differs from floor. -/
theorem C4_floor_on_world (mx my : ℚ) (z : ℤ) (s : ℚ) (hs : 0 < s)
    (hmx : -ORIGIN_SHIFT ≤ mx) (hmy : my ≤ ORIGIN_SHIFT) :
    mercator_to_tile mx my z s =
      (⌊(mx + ORIGIN_SHIFT) / (s * resolution z s)⌋,
       ⌊(ORIGIN_SHIFT - my) / (s * resolution z s)⌋) := by
  have hr : 0 < resolution z s := resolution_pos z hs
  have hsr : 0 < s * resolution z s := mul_pos hs hr
  have e1 : (mx + ORIGIN_SHIFT) / resolution z s / s
      = (mx + ORIGIN_SHIFT) / (s * resolution z s) := by
    rw [div_div, mul_comm]
  have e2 : (ORIGIN_SHIFT - my) / resolution z s / s
      = (ORIGIN_SHIFT - my) / (s * resolution z s) := by
    rw [div_div, mul_comm]
  rw [mercator_eq_of mx my z s _ _ e1 e2,
    pytrunc_of_nonneg (div_nonneg (by linarith) (le_of_lt hsr)),
    pytrunc_of_nonneg (div_nonneg (by linarith) (le_of_lt hsr))]

/-- Witness for the amended C4 at `mx = my = 0`, `z = 0`, `s = 256`. -/
theorem C4_witness :
    (0 : ℚ) < 256 ∧ -ORIGIN_SHIFT ≤ (0 : ℚ) ∧ (0 : ℚ) ≤ ORIGIN_SHIFT ∧
    mercator_to_tile 0 0 0 256 =
      (⌊((0 : ℚ) + ORIGIN_SHIFT) / (256 * resolution 0 256)⌋,
       ⌊(ORIGIN_SHIFT - (0 : ℚ)) / (256 * resolution 0 256)⌋) :=
  ⟨by norm_num, by linarith [ORIGIN_SHIFT_pos], by linarith [ORIGIN_SHIFT_pos],
    C4_floor_on_world 0 0 0 256 (by norm_num) (by linarith [ORIGIN_SHIFT_pos])
      (by linarith [ORIGIN_SHIFT_pos])⟩

/-! ### List machinery for the grid computation -/

lemma intRange_single (a : ℤ) : intRange a a = [a] := by
  have h : (a + 1 - a).toNat = 1 := by omega
  rw [intRange, h, show List.range 1 = [0] from rfl]
  simp

lemma intRange_pair (a : ℤ) : intRange a (a + 1) = [a, a + 1] := by
  have h : (a + 1 + 1 - a).toNat = 2 := by omega
  rw [intRange, h, show List.range 2 = [0, 1] from rfl]
  simp

lemma intRange_natCast (n : ℕ) :
    intRange 0 (n : ℤ) = (List.range (n + 1)).map (fun i : ℕ => (i : ℤ)) := by
  have h : ((n : ℤ) + 1 - 0).toNat = n + 1 := by omega
  rw [intRange, h]
  simp only [zero_add]

/-- Evaluation helper: `tileGrid` once the two corner projections are
known. -/
lemma tileGrid_eval (minx miny maxx maxy : ℚ) (z : ℤ) (s : ℚ)
    (a1 b1 a2 b2 : ℤ)
    (h1 : mercator_to_tile minx miny z s = (a1, b1))
    (h2 : mercator_to_tile maxx maxy z s = (a2, b2)) :
    tileGrid minx miny maxx maxy z s =
      (intRange (min a1 a2) (max a1 a2)).flatMap (fun tx =>
        ((intRange (min b2 b1) (max b2 b1)).filter
            (fun ty => is_valid_tile tx ty z)).map
          (fun ty => (tx, ty))) := by
  simp only [tileGrid, h1, h2]

/-- Claim C5, counterexample: the claim asserts a zero-area viewport
yields an empty tile sequence, but at the world origin with `z = 0`,
`s = 256` the grid computation returns the single containing tile
`(0, 0)`. -/
theorem C5_counterexample :
    tileGrid 0 0 0 0 0 256 = [(0, 0)] ∧
    tileGrid 0 0 0 0 0 256 ≠ ([] : List (ℤ × ℤ)) := by
  have hOS : 0 < ORIGIN_SHIFT := ORIGIN_SHIFT_pos
  have hOS0 : ORIGIN_SHIFT ≠ 0 := ne_of_gt hOS
  have hres : resolution 0 256 = ORIGIN_SHIFT / 128 := by
    unfold resolution
    norm_num
    ring
  have hc : mercator_to_tile 0 0 0 256 = (0, 0) :=
    mercator_eq_half 0 0 0 256 0 0 (le_refl 0) (le_refl 0)
      (by rw [hres]; field_simp; ring) (by rw [hres]; field_simp; ring)
  have heq : tileGrid 0 0 0 0 0 256 = [(0, 0)] := by
    rw [tileGrid_eval 0 0 0 0 0 256 0 0 0 0 hc hc]
    simp only [min_self, max_self, intRange_single]
    have hv : is_valid_tile 0 0 0 = true := by
      have := (is_valid_tile_iff 0 0 0).mpr (by norm_num)
      simpa using this
    simp [hv]
  exact ⟨heq, by rw [heq]; simp⟩

/-- Claim C5 as amended: a zero-area viewport is not an error; the grid
computation returns the single tile containing the point when that tile
passes `is_valid_tile`, and the empty sequence otherwise. -/
theorem C5_degenerate_viewport (x y : ℚ) (z : ℤ) (s : ℚ) :
    tileGrid x y x y z s =
      if is_valid_tile (mercator_to_tile x y z s).1
          (mercator_to_tile x y z s).2 z
      then [mercator_to_tile x y z s] else [] := by
  have hc : mercator_to_tile x y z s
      = ((mercator_to_tile x y z s).1, (mercator_to_tile x y z s).2) := rfl
  rw [tileGrid_eval x y x y z s _ _ _ _ hc hc]
  simp only [min_self, max_self, intRange_single]
  cases hv : is_valid_tile (mercator_to_tile x y z s).1
      (mercator_to_tile x y z s).2 z <;>
    simp [List.filter, hv]

/-- Claim C2, counterexample: the claim asserts that running the grid
computation on a viewport exactly equal to the bounds of one tile
produces exactly that tile.  At `z = 1`, `s = 256`, tile `(0, 0)`, the
top-right corner of the viewport lies on the boundary of the neighbour
tiles and the computation returns four tiles. -/
theorem C2_counterexample :
    tileGrid (tile_bounds 0 0 1 256).1 (tile_bounds 0 0 1 256).2.1
      (tile_bounds 0 0 1 256).2.2.1 (tile_bounds 0 0 1 256).2.2.2 1 256
      = [(0, 0), (0, 1), (1, 0), (1, 1)] ∧
    tileGrid (tile_bounds 0 0 1 256).1 (tile_bounds 0 0 1 256).2.1
      (tile_bounds 0 0 1 256).2.2.1 (tile_bounds 0 0 1 256).2.2.2 1 256
      ≠ [(0, 0)] := by
  have hOS : 0 < ORIGIN_SHIFT := ORIGIN_SHIFT_pos
  have hOS0 : ORIGIN_SHIFT ≠ 0 := ne_of_gt hOS
  have hres : resolution 1 256 = ORIGIN_SHIFT / 256 := by
    unfold resolution
    norm_num
    ring
  have hb : tile_bounds 0 0 1 256 = (-ORIGIN_SHIFT, 0, 0, ORIGIN_SHIFT) := by
    simp only [tile_bounds, hres, Prod.mk.injEq]
    refine ⟨by ring, by ring, by ring, by ring⟩
  have hc1 : mercator_to_tile (-ORIGIN_SHIFT) 0 1 256 = (0, 1) :=
    mercator_eq_int (-ORIGIN_SHIFT) 0 1 256 0 1
      (by rw [hres]; field_simp) (by rw [hres]; field_simp)
  have hc2 : mercator_to_tile 0 ORIGIN_SHIFT 1 256 = (1, 0) :=
    mercator_eq_int 0 ORIGIN_SHIFT 1 256 1 0
      (by rw [hres]; field_simp) (by rw [hres]; field_simp)
  have hv : ∀ a b : ℤ, 0 ≤ a → a < 2 → 0 ≤ b → b < 2 →
      is_valid_tile a b 1 = true := by
    intro a b ha ha' hb hb'
    have := (is_valid_tile_iff 1 a b).mpr
      ⟨ha, by simpa using ha', hb, by simpa using hb'⟩
    simpa using this
  have heq : tileGrid (tile_bounds 0 0 1 256).1 (tile_bounds 0 0 1 256).2.1
      (tile_bounds 0 0 1 256).2.2.1 (tile_bounds 0 0 1 256).2.2.2 1 256
      = [(0, 0), (0, 1), (1, 0), (1, 1)] := by
    rw [hb]
    rw [tileGrid_eval (-ORIGIN_SHIFT) 0 0 ORIGIN_SHIFT 1 256 0 1 1 0 hc1 hc2]
    rw [show min (0 : ℤ) 1 = 0 by norm_num, show max (0 : ℤ) 1 = 1 by norm_num,
      show intRange 0 1 = [0, 1] from intRange_pair 0]
    simp [List.filter, hv 0 0 (by norm_num) (by norm_num) (by norm_num) (by norm_num),
      hv 0 1 (by norm_num) (by norm_num) (by norm_num) (by norm_num),
      hv 1 0 (by norm_num) (by norm_num) (by norm_num) (by norm_num),
      hv 1 1 (by norm_num) (by norm_num) (by norm_num) (by norm_num)]
  exact ⟨heq, by rw [heq]; simp⟩

/-- Claim C2 as amended: on a viewport exactly equal to the bounds of a
valid tile `(tx, ty)`, the grid computation enumerates the two-by-two
block `(tx, ty)`, `(tx, ty+1)`, `(tx+1, ty)`, `(tx+1, ty+1)` filtered by
`is_valid_tile` (the top-right viewport corner lands in the neighbouring
tile), and the result always contains `(tx, ty)`; it equals the single
tile only when the three neighbours are invalid, e.g. at `z = 0`. -/
theorem C2_tile_bounds_grid (z : ℕ) (s : ℚ) (hs : 0 < s) (tx ty : ℤ)
    (h1 : 0 ≤ tx) (h2 : tx < 2 ^ z) (h3 : 0 ≤ ty) (h4 : ty < 2 ^ z) :
    tileGrid (tile_bounds tx ty (z : ℤ) s).1 (tile_bounds tx ty (z : ℤ) s).2.1
        (tile_bounds tx ty (z : ℤ) s).2.2.1 (tile_bounds tx ty (z : ℤ) s).2.2.2
        (z : ℤ) s
      = [(tx, ty), (tx, ty + 1), (tx + 1, ty), (tx + 1, ty + 1)].filter
          (fun p => is_valid_tile p.1 p.2 (z : ℤ)) ∧
    (tx, ty) ∈ tileGrid (tile_bounds tx ty (z : ℤ) s).1
        (tile_bounds tx ty (z : ℤ) s).2.1 (tile_bounds tx ty (z : ℤ) s).2.2.1
        (tile_bounds tx ty (z : ℤ) s).2.2.2 (z : ℤ) s := by
  have hr : 0 < resolution (z : ℤ) s := resolution_pos _ hs
  have hr0 : resolution (z : ℤ) s ≠ 0 := ne_of_gt hr
  have hs0 : s ≠ 0 := ne_of_gt hs
  have hb : tile_bounds tx ty (z : ℤ) s
      = ((tx : ℚ) * s * resolution (z : ℤ) s - ORIGIN_SHIFT,
         ORIGIN_SHIFT - ((ty : ℚ) + 1) * s * resolution (z : ℤ) s,
         ((tx : ℚ) + 1) * s * resolution (z : ℤ) s - ORIGIN_SHIFT,
         ORIGIN_SHIFT - (ty : ℚ) * s * resolution (z : ℤ) s) := rfl
  have hc1 : mercator_to_tile ((tx : ℚ) * s * resolution (z : ℤ) s - ORIGIN_SHIFT)
      (ORIGIN_SHIFT - ((ty : ℚ) + 1) * s * resolution (z : ℤ) s) (z : ℤ) s
      = (tx, ty + 1) :=
    mercator_eq_int _ _ _ _ tx (ty + 1)
      (by push_cast; field_simp; try ring) (by push_cast; field_simp; try ring)
  have hc2 : mercator_to_tile (((tx : ℚ) + 1) * s * resolution (z : ℤ) s - ORIGIN_SHIFT)
      (ORIGIN_SHIFT - (ty : ℚ) * s * resolution (z : ℤ) s) (z : ℤ) s
      = (tx + 1, ty) :=
    mercator_eq_int _ _ _ _ (tx + 1) ty
      (by push_cast; field_simp; try ring) (by push_cast; field_simp; try ring)
  have heq : tileGrid (tile_bounds tx ty (z : ℤ) s).1
      (tile_bounds tx ty (z : ℤ) s).2.1 (tile_bounds tx ty (z : ℤ) s).2.2.1
      (tile_bounds tx ty (z : ℤ) s).2.2.2 (z : ℤ) s
      = [(tx, ty), (tx, ty + 1), (tx + 1, ty), (tx + 1, ty + 1)].filter
          (fun p => is_valid_tile p.1 p.2 (z : ℤ)) := by
    rw [hb]
    rw [tileGrid_eval _ _ _ _ _ _ tx (ty + 1) (tx + 1) ty hc1 hc2]
    rw [min_eq_left (by omega : tx ≤ tx + 1), max_eq_right (by omega : tx ≤ tx + 1),
      min_eq_left (by omega : ty ≤ ty + 1), max_eq_right (by omega : ty ≤ ty + 1),
      intRange_pair tx, intRange_pair ty]
    cases hv1 : is_valid_tile tx ty (z : ℤ) <;>
      cases hv2 : is_valid_tile tx (ty + 1) (z : ℤ) <;>
        cases hv3 : is_valid_tile (tx + 1) ty (z : ℤ) <;>
          cases hv4 : is_valid_tile (tx + 1) (ty + 1) (z : ℤ) <;>
            simp [List.filter, hv1, hv2, hv3, hv4]
  refine ⟨heq, ?_⟩
  rw [heq]
  have hv : is_valid_tile tx ty (z : ℤ) = true :=
    (is_valid_tile_iff z tx ty).mpr ⟨h1, h2, h3, h4⟩
  simp [List.mem_filter, hv]

/-- Witness for the amended C2 at `z = 1`, `s = 256`, `(tx, ty) = (0, 0)`. -/
theorem C2_witness :
    (0 : ℚ) < 256 ∧ (0 : ℤ) ≤ 0 ∧ (0 : ℤ) < 2 ^ 1 ∧
    (tileGrid (tile_bounds 0 0 ((1 : ℕ) : ℤ) 256).1
        (tile_bounds 0 0 ((1 : ℕ) : ℤ) 256).2.1
        (tile_bounds 0 0 ((1 : ℕ) : ℤ) 256).2.2.1
        (tile_bounds 0 0 ((1 : ℕ) : ℤ) 256).2.2.2 ((1 : ℕ) : ℤ) 256
      = [((0 : ℤ), (0 : ℤ)), (0, 0 + 1), (0 + 1, 0), (0 + 1, 0 + 1)].filter
          (fun p => is_valid_tile p.1 p.2 ((1 : ℕ) : ℤ)) ∧
     ((0 : ℤ), (0 : ℤ)) ∈ tileGrid (tile_bounds 0 0 ((1 : ℕ) : ℤ) 256).1
        (tile_bounds 0 0 ((1 : ℕ) : ℤ) 256).2.1
        (tile_bounds 0 0 ((1 : ℕ) : ℤ) 256).2.2.1
        (tile_bounds 0 0 ((1 : ℕ) : ℤ) 256).2.2.2 ((1 : ℕ) : ℤ) 256) :=
  ⟨by norm_num, le_refl 0, by norm_num,
    C2_tile_bounds_grid 1 256 (by norm_num) 0 0 (by norm_num) (by norm_num)
      (by norm_num) (by norm_num)⟩

lemma sum_map_const {α : Type} (l : List α) (c : ℕ) :
    (l.map (fun _ => c)).sum = l.length * c := by
  induction l with
  | nil => simp
  | cons a t ih => simp [ih, Nat.succ_mul, Nat.add_comm]

/-- Claim C3: the tile-grid computation over the full world extent at
zoom `z ≥ 0` produces exactly `2 ^ z * 2 ^ z` distinct tiles, all of
which pass `is_valid_tile`. -/
theorem C3_world_grid (z : ℕ) (s : ℚ) (hs : 0 < s) :
    (tileGrid (-ORIGIN_SHIFT) (-ORIGIN_SHIFT) ORIGIN_SHIFT ORIGIN_SHIFT
        (z : ℤ) s).length = 2 ^ z * 2 ^ z ∧
    (tileGrid (-ORIGIN_SHIFT) (-ORIGIN_SHIFT) ORIGIN_SHIFT ORIGIN_SHIFT
        (z : ℤ) s).Nodup ∧
    ∀ p ∈ tileGrid (-ORIGIN_SHIFT) (-ORIGIN_SHIFT) ORIGIN_SHIFT ORIGIN_SHIFT
        (z : ℤ) s, is_valid_tile p.1 p.2 (z : ℤ) = true := by
  have hr : 0 < resolution (z : ℤ) s := resolution_pos _ hs
  have hr0 : resolution (z : ℤ) s ≠ 0 := ne_of_gt hr
  have hs0 : s ≠ 0 := ne_of_gt hs
  have hOS0 : ORIGIN_SHIFT ≠ 0 := ne_of_gt ORIGIN_SHIFT_pos
  set N : ℕ := 2 ^ z with hN
  have hNpos : 0 < N := pow_pos (by norm_num) z
  have h2z : ((2 : ℚ) ^ (z : ℤ)) = (N : ℚ) := by
    rw [zpow_natCast, hN]
    push_cast
    ring
  have hNQ : (N : ℚ) ≠ 0 := by positivity
  have hc1 : mercator_to_tile (-ORIGIN_SHIFT) (-ORIGIN_SHIFT) (z : ℤ) s
      = (0, (N : ℤ)) :=
    mercator_eq_int _ _ _ _ 0 (N : ℤ)
      (by push_cast; field_simp)
      (by simp only [resolution, h2z]; push_cast; field_simp; ring)
  have hc2 : mercator_to_tile ORIGIN_SHIFT ORIGIN_SHIFT (z : ℤ) s
      = ((N : ℤ), 0) :=
    mercator_eq_int _ _ _ _ (N : ℤ) 0
      (by simp only [resolution, h2z]; push_cast; field_simp; ring)
      (by push_cast; field_simp)
  set M : List ℤ := (List.range N).map (fun i : ℕ => (i : ℤ)) with hM
  have hsplit : (List.range (N + 1)).map (fun i : ℕ => (i : ℤ)) = M ++ [(N : ℤ)] := by
    rw [List.range_succ]
    simp [hM]
  have hcastN : ((2 : ℤ) ^ z) = ((N : ℤ)) := by push_cast [hN]; ring
  have hvalid_iff : ∀ a b : ℤ, is_valid_tile a b (z : ℤ) = true ↔
      (0 ≤ a ∧ a < (N : ℤ) ∧ 0 ≤ b ∧ b < (N : ℤ)) := by
    intro a b
    rw [is_valid_tile_iff z a b, hcastN]
  have hfilter_lt : ∀ a : ℤ, 0 ≤ a → a < (N : ℤ) →
      ((M ++ [(N : ℤ)]).filter (fun b => is_valid_tile a b (z : ℤ))) = M := by
    intro a ha ha'
    rw [List.filter_append]
    have h1 : M.filter (fun b => is_valid_tile a b (z : ℤ)) = M := by
      apply List.filter_eq_self.mpr
      intro b hb
      obtain ⟨i, hi, rfl⟩ := List.mem_map.mp hb
      have hiN : i < N := List.mem_range.mp hi
      exact (hvalid_iff a (i : ℤ)).mpr ⟨ha, ha', by omega,
        by exact_mod_cast hiN⟩
    have hf : is_valid_tile a (N : ℤ) (z : ℤ) = false := by
      apply Bool.eq_false_iff.mpr
      intro hcontra
      rw [hvalid_iff] at hcontra
      omega
    have h2 : [(N : ℤ)].filter (fun b => is_valid_tile a b (z : ℤ)) = [] := by
      simp [List.filter_cons, hf]
    rw [h1, h2, List.append_nil]
  have hfilter_N :
      ((M ++ [(N : ℤ)]).filter (fun b => is_valid_tile (N : ℤ) b (z : ℤ))) = [] := by
    apply List.filter_eq_nil_iff.mpr
    intro b hb hcontra
    rw [hvalid_iff] at hcontra
    omega
  have hgrid : tileGrid (-ORIGIN_SHIFT) (-ORIGIN_SHIFT) ORIGIN_SHIFT ORIGIN_SHIFT
      (z : ℤ) s = M.flatMap (fun a => M.map (fun b => (a, b))) := by
    rw [tileGrid_eval _ _ _ _ _ _ 0 (N : ℤ) (N : ℤ) 0 hc1 hc2,
      min_eq_left (by omega : (0 : ℤ) ≤ (N : ℤ)),
      max_eq_right (by omega : (0 : ℤ) ≤ (N : ℤ)),
      intRange_natCast N, hsplit, List.flatMap_append]
    have hlast : ([(N : ℤ)].flatMap (fun a =>
        ((M ++ [(N : ℤ)]).filter (fun b => is_valid_tile a b (z : ℤ))).map
          (fun b => (a, b)))) = [] := by
      rw [List.flatMap_cons, List.flatMap_nil, List.append_nil, hfilter_N,
        List.map_nil]
    rw [hlast, List.append_nil]
    apply List.flatMap_congr
    intro a ha
    obtain ⟨i, hi, rfl⟩ := List.mem_map.mp ha
    have hiN : i < N := List.mem_range.mp hi
    rw [hfilter_lt (i : ℤ) (by omega) (by exact_mod_cast hiN)]
  have hMlen : M.length = N := by simp [hM]
  have hMnodup : M.Nodup :=
    List.Nodup.map (fun a b h => by exact_mod_cast h) (List.nodup_range N)
  refine ⟨?_, ?_, ?_⟩
  · rw [hgrid, List.length_flatMap]
    simp only [Function.comp_def, List.length_map, hMlen]
    rw [sum_map_const, hMlen]
  · rw [hgrid, List.nodup_flatMap]
    constructor
    · intro a ha
      exact hMnodup.map (fun b c h => congrArg Prod.snd h)
    · refine hMnodup.imp ?_
      intro a b hab p hpa hpb
      obtain ⟨i, _, rfl⟩ := List.mem_map.mp hpa
      obtain ⟨j, _, hj⟩ := List.mem_map.mp hpb
      exact hab (congrArg Prod.fst hj).symm
  · intro p hp
    rw [hgrid] at hp
    obtain ⟨a, ha, hp2⟩ := List.mem_flatMap.mp hp
    obtain ⟨b, hb, rfl⟩ := List.mem_map.mp hp2
    obtain ⟨i, hi, rfl⟩ := List.mem_map.mp ha
    obtain ⟨j, hj, rfl⟩ := List.mem_map.mp hb
    show is_valid_tile (i : ℤ) (j : ℤ) (z : ℤ) = true
    exact (hvalid_iff _ _).mpr ⟨by omega, by exact_mod_cast List.mem_range.mp hi,
      by omega, by exact_mod_cast List.mem_range.mp hj⟩

/-- Witness for C3 at `z = 1`, `s = 256`. -/
theorem C3_witness :
    (0 : ℚ) < 256 ∧
    (tileGrid (-ORIGIN_SHIFT) (-ORIGIN_SHIFT) ORIGIN_SHIFT ORIGIN_SHIFT
        ((1 : ℕ) : ℤ) 256).length = 2 ^ 1 * 2 ^ 1 :=
  ⟨by norm_num, (C3_world_grid 1 256 (by norm_num)).1⟩

/-- Claim C6, counterexample: the claim asserts that calls with negative
zoom (or nonpositive tile size) are rejected with an input-validation
error; the code performs no validation at all.  With `z = -1` and
`s = 256`, `resolution` silently returns the numeric value
`ORIGIN_SHIFT / 64` and `mercator_to_tile` silently returns the tile
`(0, 0)`. -/
theorem C6_counterexample :
    resolution (-1) 256 = ORIGIN_SHIFT / 64 ∧
    mercator_to_tile 0 0 (-1) 256 = (0, 0) := by
  have hOS0 : ORIGIN_SHIFT ≠ 0 := ne_of_gt ORIGIN_SHIFT_pos
  have hres : resolution (-1) 256 = ORIGIN_SHIFT / 64 := by
    unfold resolution
    rw [show ((2 : ℚ) ^ (-1 : ℤ)) = 1 / 2 by
      rw [zpow_neg, zpow_one]
      norm_num]
    field_simp
    ring
  refine ⟨hres, ?_⟩
  have h := mercator_eq_of 0 0 (-1) 256 (1 / 4) (1 / 4)
    (by rw [hres]; field_simp; try ring) (by rw [hres]; field_simp; try ring)
  rw [h]
  norm_num [pytrunc]

/-- Claim C6 as amended: the core performs no input validation; with a
negative zoom and a positive tile size, `resolution` silently returns a
strictly positive numeric value instead of signalling an error, and the
other operations consume it. -/
theorem C6_no_validation (z : ℤ) (hz : z < 0) (s : ℚ) (hs : 0 < s) :
    0 < resolution z s :=
  resolution_pos z hs

/-- Witness for the amended C6 at `z = -1`, `s = 256`. -/
theorem C6_witness : (-1 : ℤ) < 0 ∧ (0 : ℚ) < 256 ∧ 0 < resolution (-1) 256 :=
  ⟨by norm_num, by norm_num,
    C6_no_validation (-1) (by norm_num) 256 (by norm_num)⟩

/-! ### Zoom estimation from scale (modelled over the reals) -/

/-- Python 3 `round` on a real value: round half to even. -/
noncomputable def pyRound (x : ℝ) : ℤ :=
  if Int.fract x < 1 / 2 then ⌊x⌋
  else if Int.fract x = 1 / 2 then (if 2 ∣ ⌊x⌋ then ⌊x⌋ else ⌊x⌋ + 1)
  else ⌊x⌋ + 1

/-- Source function `get_canvas_zoom` (lines 54-76): the canvas scale and
the window DPI are host inputs, modelled here as parameters.  Computes
`meters_per_pixel = scale / (39.37 * dpi)` and
`z = int(round(log2((2 * ORIGIN_SHIFT) / (tile_size * meters_per_pixel))))`. -/
noncomputable def get_canvas_zoom (scale dpi tile_size : ℝ) : ℤ :=
  let meters_per_pixel := scale / (39.37 * dpi)
  let z_float := Real.logb 2 ((2 * (ORIGIN_SHIFT : ℝ)) / (tile_size * meters_per_pixel))
  pyRound z_float

lemma pyRound_le_floor_add_one (x : ℝ) : pyRound x ≤ ⌊x⌋ + 1 := by
  unfold pyRound
  split_ifs <;> omega

lemma floor_le_pyRound (x : ℝ) : ⌊x⌋ ≤ pyRound x := by
  unfold pyRound
  split_ifs <;> omega

lemma pyRound_mono {x y : ℝ} (h : x ≤ y) : pyRound x ≤ pyRound y := by
  rcases lt_or_le ⌊x⌋ ⌊y⌋ with hf | hf
  · calc pyRound x ≤ ⌊x⌋ + 1 := pyRound_le_floor_add_one x
      _ ≤ ⌊y⌋ := by omega
      _ ≤ pyRound y := floor_le_pyRound y
  · have hfe : ⌊x⌋ = ⌊y⌋ := le_antisymm (Int.floor_mono h) hf
    have hff : Int.fract x ≤ Int.fract y := by
      simp only [Int.fract]
      rw [hfe]
      linarith
    rcases lt_trichotomy (Int.fract x) (1 / 2 : ℝ) with hx1 | hx2 | hx3
    · have hpx : pyRound x = ⌊x⌋ := by
        unfold pyRound
        rw [if_pos hx1]
      rw [hpx, hfe]
      exact floor_le_pyRound y
    · have hy : (1 / 2 : ℝ) ≤ Int.fract y := hx2 ▸ hff
      rcases eq_or_lt_of_le hy with hy2 | hy3
      · have hpx : pyRound x = (if 2 ∣ ⌊x⌋ then ⌊x⌋ else ⌊x⌋ + 1) := by
          unfold pyRound
          rw [if_neg (by linarith), if_pos hx2]
        have hpy : pyRound y = (if 2 ∣ ⌊y⌋ then ⌊y⌋ else ⌊y⌋ + 1) := by
          unfold pyRound
          rw [if_neg (by linarith), if_pos hy2.symm]
        rw [hpx, hpy, hfe]
      · have hpy : pyRound y = ⌊y⌋ + 1 := by
          unfold pyRound
          rw [if_neg (by linarith), if_neg (ne_of_gt hy3)]
        rw [hpy, ← hfe]
        exact pyRound_le_floor_add_one x
    · have hy3 : (1 / 2 : ℝ) < Int.fract y := lt_of_lt_of_le hx3 hff
      have hpx : pyRound x = ⌊x⌋ + 1 := by
        unfold pyRound
        rw [if_neg (by linarith), if_neg (ne_of_gt hx3)]
      have hpy : pyRound y = ⌊y⌋ + 1 := by
        unfold pyRound
        rw [if_neg (by linarith), if_neg (ne_of_gt hy3)]
      rw [hpx, hpy, hfe]

/-- Claim C8: for fixed `dpi > 0` and tile size `s > 0`, the integer zoom
estimate of `get_canvas_zoom` is non-increasing as the scale value
increases. -/
theorem C8_zoom_antitone (dpi s : ℝ) (hdpi : 0 < dpi) (hs : 0 < s)
    (scale1 scale2 : ℝ) (h1 : 0 < scale1) (h12 : scale1 ≤ scale2) :
    get_canvas_zoom scale2 dpi s ≤ get_canvas_zoom scale1 dpi s := by
  have h2 : 0 < scale2 := lt_of_lt_of_le h1 h12
  have hOSR : (0 : ℝ) < ((ORIGIN_SHIFT : ℚ) : ℝ) := by
    exact_mod_cast ORIGIN_SHIFT_pos
  simp only [get_canvas_zoom]
  apply pyRound_mono
  have hd1 : (0 : ℝ) < s * (scale1 / (39.37 * dpi)) := by positivity
  have hd2 : (0 : ℝ) < s * (scale2 / (39.37 * dpi)) := by positivity
  apply Real.logb_le_logb_of_le one_lt_two (div_pos (by linarith) hd2)
  have hle : s * (scale1 / (39.37 * dpi)) ≤ s * (scale2 / (39.37 * dpi)) :=
    mul_le_mul_of_nonneg_left
      ((div_le_div_right (by positivity)).mpr h12) (le_of_lt hs)
  exact div_le_div_of_nonneg_left (by linarith) hd1 hle

/-- Witness for C8 at `dpi = 96`, `s = 256`, scales `1000 ≤ 2000`. -/
theorem C8_witness :
    (0 : ℝ) < 96 ∧ (0 : ℝ) < 256 ∧ (0 : ℝ) < 1000 ∧ (1000 : ℝ) ≤ 2000 ∧
    get_canvas_zoom 2000 96 256 ≤ get_canvas_zoom 1000 96 256 :=
  ⟨by norm_num, by norm_num, by norm_num, by norm_num,
    C8_zoom_antitone 96 256 (by norm_num) (by norm_num) 1000 2000
      (by norm_num) (by norm_num)⟩

end TileBoundary
